import Mathlib

/-!
Verification development for the GRR thread pool
(`grr/server/grr_response_server/threadpool.py`) and its batch converter.

The Python code is shallowly embedded: the stateful admission loop of
`ThreadPool.AddTask` is modelled as a recursion over a list of per-iteration
environment observations (queue-full result, pool length, CPU reading, spawn
success, blocking-put success); worker bookkeeping and the pool registry are
modelled as explicit state passing; exceptions are modelled with `Except`.
-/

namespace Threadpool

/-- Environment observations for one iteration of the admission loop in
`ThreadPool.AddTask` (lines 371-407): whether the non-blocking `put`
succeeds, the live worker count `len(self)`, the value of `CPUUsage()`,
whether `_AddWorker()` succeeds, and whether the 1-second blocking `put`
succeeds. -/
structure LoopObs where
  pushOk : Bool
  poolLen : Nat
  cpu : Nat
  spawnOk : Bool
  blockPutOk : Bool
deriving DecidableEq

/-- Observable outcome of one `AddTask` call: the task was queued, the task
was executed inline on the calling thread, `Full` was raised, or the
observation list was exhausted while the loop was still running. -/
inductive AddOutcome where
  | queued
  | ranInline
  | fullErr
  | noFuel
deriving DecidableEq

/-- Result of an `AddTask` call: its outcome together with the number of
workers spawned by the growth branch during the call. -/
structure AddResult where
  outcome : AddOutcome
  spawned : Nat
deriving DecidableEq

/-- Growth condition of `AddTask` line 382:
`len(self) < self.max_threads and self.CPUUsage() < 90`. -/
def canGrow (maxT : Nat) (o : LoopObs) : Bool :=
  decide (o.poolLen < maxT) && decide (o.cpu < 90)

/-- The `while True` admission loop of `AddTask` (lines 372-407), after the
`inline`/`blocking` flags have been fixed.  Branches, in source order:
successful non-blocking push returns; on `Queue.Full`, if the pool may grow
and the spawn succeeds the loop continues; otherwise, if `inline` the loop
breaks and the task runs inline; otherwise, if `blocking`, a 1-second
blocking push either returns or the loop continues; otherwise `Full` is
raised. -/
def addTaskLoop (maxT : Nat) (inl blocking : Bool) : List LoopObs → AddResult
  | [] => ⟨.noFuel, 0⟩
  | o :: rest =>
    if o.pushOk then ⟨.queued, 0⟩
    else if canGrow maxT o && o.spawnOk then
      let r := addTaskLoop maxT inl blocking rest
      ⟨r.outcome, r.spawned + 1⟩
    else if inl then ⟨.ranInline, 0⟩
    else if blocking then
      if o.blockPutOk then ⟨.queued, 0⟩
      else addTaskLoop maxT inl blocking rest
    else ⟨.fullErr, 0⟩

/-- `ThreadPool.AddTask` (lines 336-411): with `max_threads == 0` the task
runs inline immediately (line 364); otherwise `inline` forces
`blocking := False` (line 368) and the admission loop runs. -/
def AddTask (maxT : Nat) (blocking inl : Bool) (obs : List LoopObs) : AddResult :=
  if maxT = 0 then ⟨.ranInline, 0⟩
  else addTaskLoop maxT inl (if inl then false else blocking) obs

/-- The condition under which the admission loop raises `Full`: the
non-blocking push fails, and either the growth branch keeps succeeding
(so the loop continues and the condition recurses) or no worker is
spawned in that iteration. -/
def fullCondB (maxT : Nat) : List LoopObs → Bool
  | [] => false
  | o :: rest =>
    !o.pushOk && (if canGrow maxT o && o.spawnOk then fullCondB maxT rest else true)

theorem addTaskLoop_inline_ne_full (maxT : Nat) (b : Bool) (obs : List LoopObs) :
    (addTaskLoop maxT true b obs).outcome ≠ .fullErr := by
  induction obs with
  | nil => simp [addTaskLoop]
  | cons o rest ih =>
    simp only [addTaskLoop]
    split
    · simp
    · split
      · simpa using ih
      · simp

theorem addTaskLoop_blocking_ne_full (maxT : Nat) (obs : List LoopObs) :
    (addTaskLoop maxT false true obs).outcome ≠ .fullErr := by
  induction obs with
  | nil => simp [addTaskLoop]
  | cons o rest ih =>
    simp only [addTaskLoop]
    rcases hp : o.pushOk with _ | _
    · rcases hg : canGrow maxT o && o.spawnOk with _ | _
      · rcases hb : o.blockPutOk with _ | _
        · simpa [hp, hg, hb] using ih
        · simp [hp, hg, hb]
      · simpa [hp, hg] using ih
    · simp [hp]

theorem addTaskLoop_nonblocking_full_iff (maxT : Nat) (obs : List LoopObs) :
    (addTaskLoop maxT false false obs).outcome = .fullErr ↔ fullCondB maxT obs = true := by
  induction obs with
  | nil => simp [addTaskLoop, fullCondB]
  | cons o rest ih =>
    simp only [addTaskLoop, fullCondB]
    rcases hp : o.pushOk with _ | _
    · rcases hg : canGrow maxT o && o.spawnOk with _ | _
      · simp [hp, hg]
      · simpa [hp, hg] using ih
    · simp [hp]

/-- C1: on a pool with `max_threads > 0`, `AddTask` raises `Full` exactly
when `blocking = false`, `inline = false`, the non-blocking push finds the
queue saturated, and no additional worker is spawned in that loop iteration
(the pool is at `max_threads`, CPU usage is at least 90, or the spawn
failed) — earlier iterations having ended in a successful spawn.  Moreover,
whenever `inline = true` (in particular with the default arguments
`blocking=true, inline=true`), a saturated iteration in which no worker is
spawned runs the task inline on the caller instead. -/
theorem addTask_full_iff (maxT : Nat) (hm : 0 < maxT) (blocking inl : Bool)
    (obs : List LoopObs) :
    ((AddTask maxT blocking inl obs).outcome = .fullErr ↔
      blocking = false ∧ inl = false ∧ fullCondB maxT obs = true) ∧
    (∀ (b : Bool) (o : LoopObs) (rest : List LoopObs),
      o.pushOk = false → (canGrow maxT o && o.spawnOk) = false →
      AddTask maxT b true (o :: rest) = ⟨.ranInline, 0⟩) := by
  have hmz : maxT ≠ 0 := Nat.pos_iff_ne_zero.mp hm
  constructor
  · unfold AddTask
    rw [if_neg hmz]
    rcases inl with _ | _
    · rcases blocking with _ | _
      · simpa using addTaskLoop_nonblocking_full_iff maxT obs
      · simpa using addTaskLoop_blocking_ne_full maxT obs
    · simpa using addTaskLoop_inline_ne_full maxT (if true then false else blocking) obs
  · intro b o rest hp hg
    unfold AddTask
    rw [if_neg hmz]
    simp [addTaskLoop, hp, hg]

/-- Witness for `addTask_full_iff` at `max_threads = 1` and a single
saturated iteration with the pool already at `max_threads`. -/
theorem addTask_full_iff_witness :
    (0 < 1 ∧
      (((AddTask 1 false false [⟨false, 1, 0, false, false⟩]).outcome = .fullErr ↔
        false = false ∧ false = false ∧ fullCondB 1 [⟨false, 1, 0, false, false⟩] = true) ∧
      (∀ (b : Bool) (o : LoopObs) (rest : List LoopObs),
        o.pushOk = false → (canGrow 1 o && o.spawnOk) = false →
        AddTask 1 b true (o :: rest) = ⟨.ranInline, 0⟩))) :=
  ⟨by decide, addTask_full_iff 1 (by decide) false false [⟨false, 1, 0, false, false⟩]⟩

/-- Metric state of a named pool's stats sink, modelled from the spec's
external metrics interface (section 6): a counter is a natural number that
`IncrementCounter` bumps by one, an event metric is a sample count that
`RecordEvent` bumps by one. -/
structure Stats where
  taskExceptions : Nat
  workingTimeSamples : Nat
  queueingTimeSamples : Nat
deriving DecidableEq

/-- Invocation of a task's `target`: raises or returns normally. -/
def runTarget (raises : Bool) : Except String Unit :=
  if raises then .error "task exception" else .ok ()

/-- `_WorkerThread.ProcessTask` (lines 93-114): for named pools record a
queueing-time sample, call `target` catching every exception (incrementing
`<name>_task_exceptions` for named pools), then for named pools record a
working-time sample.  The return type `Stats` (not `Except`) embeds the
fact that the worker never re-raises. -/
def ProcessTask (named raises : Bool) (s : Stats) : Stats :=
  let s1 := if named then { s with queueingTimeSamples := s.queueingTimeSamples + 1 } else s
  let s2 :=
    match runTarget raises with
    | .ok _ => s1
    | .error _ =>
      if named then { s1 with taskExceptions := s1.taskExceptions + 1 } else s1
  if named then { s2 with workingTimeSamples := s2.workingTimeSamples + 1 } else s2

/-- A worker processing a list of tasks in sequence, each task identified by
whether its `target` raises. -/
def ProcessTasks (named : Bool) (tasks : List Bool) (s : Stats) : Stats :=
  tasks.foldl (fun st r => ProcessTask named r st) s

/-- `ThreadPool.AddTask` together with the execution of `target` when the
inline path was taken: the calls `target(*args)` at lines 365 and 411 are
outside any `try`/`except`, so an exception raised there propagates to the
caller of `AddTask`. -/
def AddTaskRun (maxT : Nat) (blocking inl : Bool) (obs : List LoopObs)
    (raises : Bool) : Except String AddResult :=
  let r := AddTask maxT blocking inl obs
  match r.outcome with
  | .ranInline =>
    match runTarget raises with
    | .ok _ => .ok r
    | .error e => .error e
  | _ => .ok r

/-- C2 counterexample: the claim says the exception of every raising task is
caught at the call to `target` and never propagated out of the pool, but a
task submitted with the default arguments to a saturated pool of
`max_threads = 1` (queue full, pool at max) runs inline at line 411 and its
exception escapes `AddTask` to the caller. -/
theorem inline_task_exception_escapes :
    AddTaskRun 1 true true [⟨false, 1, 0, false, false⟩] true =
      .error "task exception" := by
  rfl

/-- C2 amended: for every task dequeued and executed by a worker of a named
pool, an exception raised by `target` is contained in `ProcessTask`
(caught, counted, never re-raised — `ProcessTask` is total into `Stats`),
so a worker executing `N` tasks of which `K` raise increments the
`task_exceptions` counter by exactly `K` and records exactly `N`
working-time samples; tasks run inline on the caller are not covered. -/
theorem worker_exception_containment (tasks : List Bool) (s : Stats) :
    (ProcessTasks true tasks s).taskExceptions = s.taskExceptions + tasks.count true ∧
    (ProcessTasks true tasks s).workingTimeSamples =
      s.workingTimeSamples + tasks.length := by
  induction tasks generalizing s with
  | nil => simp [ProcessTasks]
  | cons t ts ih =>
    have hstep : ProcessTasks true (t :: ts) s = ProcessTasks true ts (ProcessTask true t s) := rfl
    rcases t with _ | _
    · rcases ih (ProcessTask true false s) with ⟨h1, h2⟩
      refine ⟨?_, ?_⟩
      · rw [hstep, h1]
        simp [ProcessTask, runTarget, List.count_cons]
      · rw [hstep, h2]
        simp [ProcessTask, runTarget]
        omega
    · rcases ih (ProcessTask true true s) with ⟨h1, h2⟩
      refine ⟨?_, ?_⟩
      · rw [hstep, h1]
        simp [ProcessTask, runTarget, List.count_cons]
        omega
      · rw [hstep, h2]
        simp [ProcessTask, runTarget]
        omega

/-- Idle bookkeeping of one iteration of `_WorkerThread.run` (lines
138-148): at the top of the loop `idle` is set to `true` only when the pool
is named, and after a successful dequeue it is set to `false` only when the
pool is named.  `got` records whether the dequeue returned a message before
the 60-second timeout. -/
def idleAfter (named : Bool) (idle0 : Bool) (events : List Bool) : Bool :=
  events.foldl (fun idle got => if named then !got else idle) idle0

/-- Initial value of the `idle` flag set in `_WorkerThread.__init__`
(line 90). -/
def workerInitIdle : Bool := true

/-- `ThreadPool.busy_threads` (lines 285-287): the number of workers whose
`idle` flag is `false`.  Each worker is represented by the list of dequeue
events its loop has seen so far. -/
def busyThreads (named : Bool) (workers : List (List Bool)) : Nat :=
  (workers.filter (fun ev => !(idleAfter named workerInitIdle ev))).length

theorem idleAfter_unnamed (idle0 : Bool) (events : List Bool) :
    idleAfter false idle0 events = idle0 := by
  induction events with
  | nil => rfl
  | cons e es ih => exact ih

/-- C10: for a pool whose name is empty, `busy_threads` always returns 0:
workers start with `idle = true` and the worker loop flips the flag only
when the pool is named, so no worker of an unnamed pool is ever observed as
busy, whatever dequeue events each worker has seen. -/
theorem unnamed_busy_threads_zero (workers : List (List Bool)) :
    busyThreads false workers = 0 := by
  unfold busyThreads
  have hfilter : workers.filter (fun ev => !(idleAfter false workerInitIdle ev)) = [] := by
    induction workers with
    | nil => rfl
    | cons w ws ih => simp [List.filter, idleAfter_unnamed, workerInitIdle, ih]
  rw [hfilter]
  rfl

/-- Worker-count state of a pool: the number of live workers
(`len(self._workers)`) and the `started` flag. -/
structure PoolSt where
  workers : Nat
  started : Bool
deriving DecidableEq

/-- Worker-count transitions of the pool under normal usage (tasks are only
added while the pool is started, matching the spec's state machine in which
`AddTask` operates in the Started state):
`start` is `ThreadPool.Start` (lines 292-298) — it sets `started = True`
before the spawn loop, and `_AddWorker` (lines 300-306) has no exception
handler, so a `worker.start()` failure aborts the loop after any
`k ≤ min_threads` successful spawns, leaving the pool started with `k`
workers; `k = min_threads` when every spawn succeeds, which is what the
`spawnsOk` parameter of the relation enforces when `true`.
`spawn` is the growth branch of `AddTask` (lines 382-384), guarded by
`len(self) < self.max_threads`; `retire` is
`_WorkerThread._RemoveFromPool` (lines 116-130), guarded by
`len(self.pool) > self.pool.min_threads`; `stop` is `ThreadPool.Stop`
(lines 313-334), clearing the worker map. -/
inductive PoolStep (minT maxT : Nat) (spawnsOk : Bool) : PoolSt → PoolSt → Prop
  | start (w k : Nat) (hk : k ≤ minT) (hfull : spawnsOk = true → k = minT) :
      PoolStep minT maxT spawnsOk ⟨w, false⟩ ⟨w + k, true⟩
  | spawn (w : Nat) (h : w < maxT) : PoolStep minT maxT spawnsOk ⟨w, true⟩ ⟨w + 1, true⟩
  | retire (w : Nat) (h : minT < w) : PoolStep minT maxT spawnsOk ⟨w, true⟩ ⟨w - 1, true⟩
  | stop (w : Nat) : PoolStep minT maxT spawnsOk ⟨w, true⟩ ⟨0, false⟩

/-- States reachable from a freshly constructed pool (no workers, not
started).  With `spawnsOk = false` this is the program's full behaviour,
thread-creation failures during `Start` included; with `spawnsOk = true` it
is restricted to executions in which every `Start` spawned all
`min_threads` workers. -/
inductive Reach (minT maxT : Nat) (spawnsOk : Bool) : PoolSt → Prop
  | init : Reach minT maxT spawnsOk ⟨0, false⟩
  | step {s s' : PoolSt} : Reach minT maxT spawnsOk s →
      PoolStep minT maxT spawnsOk s s' → Reach minT maxT spawnsOk s'

/-- C3 counterexample: the claim asserts
`min_threads ≤ live worker count ≤ max_threads` for every pool at all times
outside `Stop`, but (a) a freshly constructed (or stopped) pool with
`min_threads = 1` is a reachable state outside `Stop` with 0 live workers,
and (b) with `min_threads = 2`, a `Start` whose second `worker.start()`
raises (the unhandled failure path of `_AddWorker`) leaves a reachable
*started* state with 1 live worker — both violating the lower bound. -/
theorem worker_bounds_counterexample :
    (Reach 1 1 false ⟨0, false⟩ ∧ ¬(1 ≤ (PoolSt.mk 0 false).workers)) ∧
    (Reach 2 2 false ⟨1, true⟩ ∧ ¬(2 ≤ (PoolSt.mk 1 true).workers)) :=
  ⟨⟨Reach.init, by decide⟩,
   ⟨Reach.step Reach.init (PoolStep.start 0 1 (by decide) (by simp)), by decide⟩⟩

/-- C3 amended: provided `min_threads ≤ max_threads` (guaranteed by the
constructor's coercion) and tasks are only added while the pool is started,
every reachable state — spawn failures during `Start` included — satisfies
`workers ≤ max_threads`, and the worker count is 0 while the pool is not
started (initially and after `Stop`); the claimed lower bound
`min_threads ≤ workers` additionally holds in every started state of the
executions in which every `Start` spawned all `min_threads` workers, and
only of those: a partial spawn failure leaves a started state below
`min_threads` (see the counterexample). -/
theorem worker_bounds_amended (minT maxT : Nat) (hle : minT ≤ maxT) :
    (∀ (spawnsOk : Bool) (s : PoolSt), Reach minT maxT spawnsOk s →
      s.workers ≤ maxT ∧ (s.started = false → s.workers = 0)) ∧
    (∀ s : PoolSt, Reach minT maxT true s →
      (s.started = true → minT ≤ s.workers) ∧ (s.started = false → s.workers = 0)) := by
  constructor
  · intro spawnsOk s h
    induction h with
    | init => exact ⟨Nat.zero_le _, fun _ => rfl⟩
    | step hr hstep ih =>
      cases hstep with
      | start w k hk hfull =>
        have hw : w = 0 := ih.2 rfl
        subst hw
        exact ⟨by simpa using Nat.le_trans hk hle, by simp⟩
      | spawn w hw => exact ⟨hw, by simp⟩
      | retire w hw => exact ⟨Nat.le_trans (Nat.sub_le _ _) ih.1, by simp⟩
      | stop w => exact ⟨Nat.zero_le _, fun _ => rfl⟩
  · intro s h
    induction h with
    | init => exact ⟨by simp, fun _ => rfl⟩
    | step hr hstep ih =>
      cases hstep with
      | start w k hk hfull =>
        have hw : w = 0 := ih.2 rfl
        subst hw
        have hk' : k = minT := hfull rfl
        subst hk'
        exact ⟨fun _ => by simp, by simp⟩
      | spawn w hw => exact ⟨fun _ => Nat.le_succ_of_le (ih.1 rfl), by simp⟩
      | retire w hw => exact ⟨fun _ => Nat.le_pred_of_lt hw, by simp⟩
      | stop w => exact ⟨by simp, fun _ => rfl⟩

/-- Witness for `worker_bounds_amended` at `min_threads = 1`,
`max_threads = 2`, in the state reached by a fully successful `Start` on a
fresh pool. -/
theorem worker_bounds_amended_witness :
    ((PoolSt.mk 1 true).workers ≤ 2 ∧
      ((PoolSt.mk 1 true).started = false → (PoolSt.mk 1 true).workers = 0)) ∧
    (((PoolSt.mk 1 true).started = true → 1 ≤ (PoolSt.mk 1 true).workers) ∧
      ((PoolSt.mk 1 true).started = false → (PoolSt.mk 1 true).workers = 0)) :=
  ⟨(worker_bounds_amended 1 2 (by decide)).1 false (PoolSt.mk 1 true)
      (Reach.step Reach.init (PoolStep.start 0 1 (by decide) (fun _ => rfl))),
   (worker_bounds_amended 1 2 (by decide)).2 (PoolSt.mk 1 true)
      (Reach.step Reach.init (PoolStep.start 0 1 (by decide) (fun _ => rfl)))⟩

/-- Messages carried by the pool's queue: a real task (identified by whether
its `target` raises) or the stop sentinel `STOP_MESSAGE` (line 41). -/
inductive QMsg where
  | task (raises : Bool)
  | stopMessage
deriving DecidableEq

/-- What one dequeued message does to the worker, per the inner
`try`/`finally` of `_WorkerThread.run` (lines 150-157): on the sentinel the
worker returns immediately without calling `ProcessTask`, on a task it
calls `ProcessTask`; in both cases the `finally` invokes
`self._queue.task_done()`. -/
structure WorkerStep where
  exited : Bool
  processed : Bool
  taskDone : Bool
deriving DecidableEq

/-- Handling of one dequeued message by `_WorkerThread.run`
(lines 150-157). -/
def handleMsg : QMsg → WorkerStep
  | .stopMessage => ⟨true, false, true⟩
  | .task _ => ⟨false, true, true⟩

/-- `ThreadPool.Stop` (lines 325-327) pushes one `STOP_MESSAGE` per captured
worker. -/
def StopSentinels (workers : Nat) : List QMsg :=
  List.replicate workers .stopMessage

/-- Number of `task_done` acknowledgments issued for a list of dequeued
messages. -/
def ackCount (msgs : List QMsg) : Nat :=
  (msgs.filter (fun m => (handleMsg m).taskDone)).length

/-- C4 counterexample: the claim asserts the worker exits on the sentinel
without invoking the task-completion acknowledgment for it, but the
`finally` at line 157 calls `self._queue.task_done()` for the sentinel just
as for a real task. -/
theorem sentinel_ack_counterexample :
    ¬((handleMsg QMsg.stopMessage).processed = false ∧
      (handleMsg QMsg.stopMessage).taskDone = false) := by
  decide

/-- C4 amended: on the sentinel the worker exits immediately without
executing it as a task (`ProcessTask` is not called), and the
task-completion acknowledgment `task_done` IS invoked for the sentinel by
the `finally` block — this is exactly what decrements the queue's
outstanding-work counter once per sentinel, so after the `k` sentinels
pushed by `Stop` (one per captured worker) are all handled, the counter
returns to its prior value `c` and the `Join` inside `Stop` completes when
`c = 0`. -/
theorem sentinel_handling_amended :
    (handleMsg QMsg.stopMessage).exited = true ∧
    (handleMsg QMsg.stopMessage).processed = false ∧
    (handleMsg QMsg.stopMessage).taskDone = true ∧
    ∀ c k : Nat, c + (StopSentinels k).length - ackCount (StopSentinels k) = c := by
  refine ⟨rfl, rfl, rfl, fun c k => ?_⟩
  have hack : ackCount (StopSentinels k) = k := by
    induction k with
    | zero => rfl
    | succ n ih =>
      simp only [StopSentinels, List.replicate_succ] at ih ⊢
      simp only [ackCount, List.filter] at ih ⊢
      simp [handleMsg, ih]
  rw [hack]
  simp [StopSentinels]

/-- One pass of the spawn loop shared by `ThreadPool.Start` and
`_AddWorker` (lines 293-306): `spawned` workers have been created so far,
`remaining` remain to create; `oracle i` tells whether the `i`-th call to
`worker.start()` succeeds.  `_AddWorker` contains no `try`/`except`, so the
first failing `worker.start()` propagates out of `Start` immediately; the
result is the pair (workers actually spawned, whether an error
propagated). -/
def startGo (oracle : Nat → Bool) : Nat → Nat → Nat × Bool
  | spawned, 0 => (spawned, false)
  | spawned, r + 1 =>
    if oracle spawned then startGo oracle (spawned + 1) r else (spawned, true)

/-- `ThreadPool.Start` (lines 292-298) on an unstarted pool: attempt to
spawn `min_threads` workers. -/
def Start (minT : Nat) (oracle : Nat → Bool) : Nat × Bool :=
  startGo oracle 0 minT

theorem startGo_all_ok (n : Nat) : ∀ s : Nat, startGo (fun _ => true) s n = (s + n, false) := by
  induction n with
  | zero => intro s; rfl
  | succ m ih =>
    intro s
    have h1 : startGo (fun _ => true) s (m + 1) = startGo (fun _ => true) (s + 1) m := rfl
    rw [h1, ih (s + 1)]
    have h2 : s + 1 + m = s + (m + 1) := by omega
    rw [h2]

/-- C5: the claim (and the module docstring at lines 11-14, and the
constructor docstring at lines 233-235) says `Start` logs and continues
with fewer workers when some spawns fail, propagating the thread-creation
error only when zero workers could be created — but `Start` and
`_AddWorker` contain no exception handler, so with `min_threads = 2` and
the second `worker.start()` failing, the error propagates out of `Start`
even though one worker was spawned.  When every spawn succeeds, `Start`
spawns exactly `min_threads` workers without error. -/
theorem start_spawn_failure_behavior :
    Start 2 (fun i => decide (i = 0)) = (1, true) ∧
      ∀ n : Nat, Start n (fun _ => true) = (n, false) := by
  refine ⟨rfl, fun n => ?_⟩
  have h := startGo_all_ok n 0
  simpa [Start] using h

/-- Configuration of a constructed pool, as fixed by `ThreadPool.__init__`
(lines 239-246). -/
structure PoolCfg where
  name : String
  minThreads : Nat
  maxThreads : Nat
deriving DecidableEq

/-- Coercion of `max_threads` in `ThreadPool.__init__` (lines 240-241): if
`max_threads` is `None` or smaller than `min_threads`, it becomes
`min_threads`. -/
def coerceMax (minT : Nat) : Option Nat → Nat
  | none => minT
  | some m => if m < minT then minT else m

/-- The process-wide pool registry `ThreadPool.POOLS` (line 193), modelled
as an association list from pool name to the stored pool. -/
abbrev Registry := List (String × PoolCfg)

/-- Lookup in the registry (`cls.POOLS.get(name)` / `name in self.POOLS`). -/
def lookupReg (reg : Registry) (name : String) : Option PoolCfg :=
  match reg.find? (fun kv => kv.1 == name) with
  | some kv => some kv.2
  | none => none

/-- `ThreadPool.__init__` (lines 222-260), registry-relevant part: a pool
with a non-empty name whose name is already in `POOLS` raises
`DuplicateThreadpoolError` (lines 257-260); otherwise construction
succeeds with the coerced `max_threads`.  The constructor itself never
inserts into `POOLS`. -/
def PoolInit (reg : Registry) (name : String) (minT : Nat) (maxT : Option Nat) :
    Except String PoolCfg :=
  if name ≠ "" ∧ (lookupReg reg name).isSome then
    .error "A thread pool with the name already exists."
  else
    .ok ⟨name, minT, coerceMax minT maxT⟩

/-- `ThreadPool.Factory` (lines 196-220): under the factory lock, return the
pool already registered under `name` if any, otherwise construct one, store
it under `name`, and return it. -/
def Factory (reg : Registry) (name : String) (minT : Nat) (maxT : Option Nat) :
    Except String (Registry × PoolCfg) :=
  match lookupReg reg name with
  | some p => .ok (reg, p)
  | none =>
    match PoolInit reg name minT maxT with
    | .ok p => .ok ((name, p) :: reg, p)
    | .error e => .error e

/-- C6: `Factory` returns the existing pool registered under `name` when one
exists, ignoring the numeric arguments (first creation wins); otherwise it
constructs, stores, and returns a new pool; it never raises
`DuplicateThreadpoolError`; and direct construction raises
`DuplicateThreadpoolError` exactly when the pool is named and its name
already appears in the registry. -/
theorem factory_registry_behavior (reg : Registry) (name : String)
    (m1 m2 : Nat) (mx1 mx2 : Option Nat) :
    (∀ p, lookupReg reg name = some p → Factory reg name m1 mx1 = .ok (reg, p)) ∧
    (∀ p, lookupReg reg name = some p →
      Factory reg name m1 mx1 = Factory reg name m2 mx2) ∧
    (lookupReg reg name = none →
      Factory reg name m1 mx1 =
        .ok ((name, ⟨name, m1, coerceMax m1 mx1⟩) :: reg, ⟨name, m1, coerceMax m1 mx1⟩)) ∧
    (∀ e, Factory reg name m1 mx1 ≠ .error e) ∧
    ((∃ e, PoolInit reg name m1 mx1 = .error e) ↔
      name ≠ "" ∧ (lookupReg reg name).isSome = true) := by
  refine ⟨?_, ?_, ?_, ?_, ?_⟩
  · intro p hp
    simp [Factory, hp]
  · intro p hp
    simp [Factory, hp]
  · intro hn
    have hinit : PoolInit reg name m1 mx1 = .ok ⟨name, m1, coerceMax m1 mx1⟩ := by
      unfold PoolInit
      rw [if_neg]
      simp [hn]
    simp [Factory, hn, hinit]
  · intro e
    cases hl : lookupReg reg name with
    | some p => simp [Factory, hl]
    | none =>
      have hinit : PoolInit reg name m1 mx1 = .ok ⟨name, m1, coerceMax m1 mx1⟩ := by
        unfold PoolInit
        rw [if_neg]
        simp [hl]
      simp [Factory, hl, hinit]
  · unfold PoolInit
    by_cases hc : name ≠ "" ∧ (lookupReg reg name).isSome
    · rw [if_pos hc]
      simp [hc.1, hc.2]
    · rw [if_neg hc]
      simp only [not_and_or, not_not] at hc
      constructor
      · rintro ⟨e, he⟩
        exact absurd he (by simp)
      · rintro ⟨h1, h2⟩
        rcases hc with hc | hc
        · exact absurd hc h1
        · exact absurd h2 hc

/-- Witness for `factory_registry_behavior`: a registry already holding a
pool under `"a"` is returned unchanged by `Factory`, with the stored pool,
ignoring the numeric arguments. -/
theorem factory_registry_behavior_witness :
    Factory [("a", PoolCfg.mk "a" 1 1)] "a" 5 (some 9) =
      .ok ([("a", PoolCfg.mk "a" 1 1)], PoolCfg.mk "a" 1 1) :=
  (factory_registry_behavior [("a", PoolCfg.mk "a" 1 1)] "a" 5 0 (some 9) none).1
    (PoolCfg.mk "a" 1 1) (by decide)

/-- C7 counterexample: the claim says a pool whose name is empty never
creates, reads, or reuses a registry entry, but `Factory` treats the empty
name as an ordinary key: on an empty registry it stores the new pool under
`""`, a subsequent lookup of `""` finds it, and a second `Factory` call
with different numeric arguments reuses that entry. -/
theorem unnamed_registry_counterexample :
    Factory [] "" 3 none = .ok ([("", PoolCfg.mk "" 3 3)], PoolCfg.mk "" 3 3) ∧
    lookupReg [("", PoolCfg.mk "" 3 3)] "" = some (PoolCfg.mk "" 3 3) ∧
    Factory [("", PoolCfg.mk "" 3 3)] "" 7 (some 8) =
      .ok ([("", PoolCfg.mk "" 3 3)], PoolCfg.mk "" 3 3) := by
  refine ⟨?_, by decide, ?_⟩ <;> rfl

/-- C7 amended: direct construction of an unnamed pool does bypass the
registry — the duplicate-name check is skipped (construction succeeds
whatever the registry holds) and the constructor adds no entry (`PoolInit`
returns only the pool, never touching the registry).  `Factory` with an
empty name, however, reads and writes the registry under the key `""` like
any other name. -/
theorem unnamed_direct_construction (reg : Registry) (minT : Nat) (maxT : Option Nat) :
    PoolInit reg "" minT maxT = .ok ⟨"", minT, coerceMax minT maxT⟩ := by
  unfold PoolInit
  rw [if_neg]
  simp

/-- C8: `max_threads == 0` forces `min_threads == 0` after the
constructor's coercion; on such a pool every `AddTask` call executes the
task inline on the caller regardless of the flags, without consulting the
admission loop (no queue push, no worker spawned), `Start` spawns no
workers and raises nothing, and `Stop` pushes no sentinels. -/
theorem max_zero_synchronous (minT : Nat) (mx : Option Nat)
    (h : coerceMax minT mx = 0) :
    minT = 0 ∧
    (∀ (b i : Bool) (obs : List LoopObs), AddTask 0 b i obs = ⟨.ranInline, 0⟩) ∧
    (∀ oracle : Nat → Bool, Start minT oracle = (0, false)) ∧
    StopSentinels 0 = [] := by
  have hmin : minT = 0 := by
    cases mx with
    | none => simpa [coerceMax] using h
    | some m =>
      by_cases hm : m < minT
      · simpa [coerceMax, hm] using h
      · rw [coerceMax, if_neg hm] at h
        omega
  subst hmin
  exact ⟨rfl, fun b i obs => rfl, fun oracle => rfl, rfl⟩

/-- Witness for `max_zero_synchronous` at `min_threads = 0`,
`max_threads = some 0`. -/
theorem max_zero_synchronous_witness :
    (0 : Nat) = 0 ∧
    (∀ (b i : Bool) (obs : List LoopObs), AddTask 0 b i obs = ⟨.ranInline, 0⟩) ∧
    (∀ oracle : Nat → Bool, Start 0 oracle = (0, false)) ∧
    StopSentinels 0 = [] :=
  max_zero_synchronous 0 (some 0) (by decide)

/-- Recursion core of `Grouper`, fuelled by the length of the list so that
the definition is structurally recursive and kernel-evaluable; with
`l.length ≤ fuel` and `0 < n` the fuel never runs out. -/
def grouperGo (n : Nat) : Nat → List α → List (List α)
  | _, [] => []
  | 0, _ :: _ => []
  | fuel + 1, x :: xs =>
    if n = 0 then []
    else (x :: xs).take n :: grouperGo n fuel ((x :: xs).drop n)

/-- Modelled from the spec: `utils.Grouper` (from
`grr_response_core.lib.utils`, whose source is not in the surveyed tree)
groups an iterable into consecutive chunks of up to `n` elements, only the
last chunk possibly shorter. -/
def Grouper (n : Nat) (l : List α) : List (List α) :=
  grouperGo n l.length l

theorem grouperGo_congr (n : Nat) (hn : 0 < n) :
    ∀ (f1 : Nat) (l : List α) (f2 : Nat), l.length ≤ f1 → l.length ≤ f2 →
      grouperGo n f1 l = grouperGo n f2 l := by
  intro f1
  induction f1 with
  | zero =>
    intro l f2 h1 h2
    have hnil : l = [] := List.eq_nil_of_length_eq_zero (Nat.le_zero.mp h1)
    subst hnil
    cases f2 <;> rfl
  | succ m ih =>
    intro l f2 h1 h2
    cases l with
    | nil => cases f2 <;> rfl
    | cons x xs =>
      cases f2 with
      | zero => simp at h2
      | succ m2 =>
        simp only [grouperGo]
        rw [if_neg (by omega), if_neg (by omega)]
        congr 1
        apply ih
        · simp only [List.length_drop, List.length_cons]
          simp only [List.length_cons] at h1
          omega
        · simp only [List.length_drop, List.length_cons]
          simp only [List.length_cons] at h2
          omega

theorem grouper_cons (n : Nat) (hn : 0 < n) (l : List α) (hl : l ≠ []) :
    Grouper n l = l.take n :: Grouper n (l.drop n) := by
  obtain ⟨x, xs, rfl⟩ := List.exists_cons_of_ne_nil hl
  show grouperGo n (xs.length + 1) (x :: xs) = _
  simp only [grouperGo]
  rw [if_neg (by omega)]
  congr 1
  apply grouperGo_congr n hn
  · simp only [List.length_drop, List.length_cons]
    omega
  · exact Nat.le_refl _

/-- `itertools.islice(values, start_index, end_index)` at line 519: the
elements of `values` with indices in the half-open range
`[start_index, end_index)`; `none` means "till the end". -/
def Islice (l : List α) (start : Nat) (stop : Option Nat) : List α :=
  match stop with
  | none => l.drop start
  | some e => (l.take e).drop start

/-- One task submitted by `BatchConverter.Convert` (lines 528-532): the
batch passed to `ConvertBatch`, with `blocking` left at its default `True`
and `inline=False`. -/
structure BatchTask (α : Type) where
  batch : List α
  blocking : Bool
  inl : Bool
deriving DecidableEq

/-- Observable effect of one `BatchConverter.Convert` call. -/
structure ConvertRun (α : Type) where
  tasks : List (BatchTask α)
  poolStarted : Bool
  poolStopped : Bool
deriving DecidableEq

/-- `BatchConverter.Convert` (lines 495-535): empty input returns before
the pool is even obtained; otherwise the pool is started, one task per
batch of the sliced input is submitted with `inline=False`, and the
`finally` stops the pool.  `failAt = some i` models an exception raised
while submitting batch `i` (after `i` successful submissions): the
`finally` still stops the pool. -/
def Convert (batchSize : Nat) (values : List α) (startIndex : Nat)
    (endIndex : Option Nat) (failAt : Option Nat) : ConvertRun α :=
  if values.length = 0 then ⟨[], false, false⟩
  else
    let bs := Grouper batchSize (Islice values startIndex endIndex)
    let submitted :=
      match failAt with
      | none => bs
      | some i => bs.take i
    ⟨submitted.map (fun b => ⟨b, true, false⟩), true, true⟩

theorem grouper_eq_nil_iff (n : Nat) (hn : 0 < n) (l : List α) :
    Grouper n l = [] ↔ l = [] := by
  cases l with
  | nil => simp [Grouper, grouperGo]
  | cons x xs =>
    rw [grouper_cons n hn _ (by simp)]
    simp

theorem grouper_flatten (n : Nat) (hn : 0 < n) (l : List α) :
    (Grouper n l).flatten = l := by
  have key : ∀ k, ∀ l : List α, l.length ≤ k → (Grouper n l).flatten = l := by
    intro k
    induction k with
    | zero =>
      intro l hl
      have hnil : l = [] := List.eq_nil_of_length_eq_zero (Nat.le_zero.mp hl)
      subst hnil
      simp [Grouper, grouperGo]
    | succ m ih =>
      intro l hl
      by_cases h : l = []
      · subst h
        simp [Grouper, grouperGo]
      · rw [grouper_cons n hn l h]
        have hdrop : (l.drop n).length ≤ m := by
          have hpos : 0 < l.length := List.length_pos.mpr h
          simp only [List.length_drop]
          omega
        rw [List.flatten_cons, ih (l.drop n) hdrop, List.take_append_drop]
  exact key l.length l (Nat.le_refl _)

theorem grouper_length_le (n : Nat) (hn : 0 < n) (l : List α) :
    ∀ b ∈ Grouper n l, b.length ≤ n := by
  have key : ∀ k, ∀ l : List α, l.length ≤ k → ∀ b ∈ Grouper n l, b.length ≤ n := by
    intro k
    induction k with
    | zero =>
      intro l hl b hb
      have hnil : l = [] := List.eq_nil_of_length_eq_zero (Nat.le_zero.mp hl)
      subst hnil
      simp [Grouper, grouperGo] at hb
    | succ m ih =>
      intro l hl b hb
      by_cases h : l = []
      · subst h
        simp [Grouper, grouperGo] at hb
      · rw [grouper_cons n hn l h] at hb
        rcases List.mem_cons.mp hb with hb | hb
        · subst hb
          simp [List.length_take]
        · have hdrop : (l.drop n).length ≤ m := by
            have hpos : 0 < l.length := List.length_pos.mpr h
            simp only [List.length_drop]
            omega
          exact ih (l.drop n) hdrop b hb
  exact key l.length l (Nat.le_refl _)

theorem grouper_dropLast_length (n : Nat) (hn : 0 < n) (l : List α) :
    ∀ b ∈ (Grouper n l).dropLast, b.length = n := by
  have key : ∀ k, ∀ l : List α, l.length ≤ k →
      ∀ b ∈ (Grouper n l).dropLast, b.length = n := by
    intro k
    induction k with
    | zero =>
      intro l hl b hb
      have hnil : l = [] := List.eq_nil_of_length_eq_zero (Nat.le_zero.mp hl)
      subst hnil
      simp [Grouper, grouperGo] at hb
    | succ m ih =>
      intro l hl b hb
      by_cases h : l = []
      · subst h
        simp [Grouper, grouperGo] at hb
      · rw [grouper_cons n hn l h] at hb
        by_cases hrest : Grouper n (l.drop n) = []
        · rw [hrest] at hb
          simp at hb
        · obtain ⟨g, gs, hgs⟩ := List.exists_cons_of_ne_nil hrest
          have hlong : n < l.length := by
            have hdne : l.drop n ≠ [] := by
              intro hx
              exact hrest ((grouper_eq_nil_iff n hn (l.drop n)).mpr hx)
            have : 0 < (l.drop n).length := List.length_pos.mpr hdne
            simp only [List.length_drop] at this
            omega
          rw [hgs] at hb
          rw [List.dropLast_cons₂] at hb
          rcases List.mem_cons.mp hb with hb | hb
          · subst hb
            simp only [List.length_take]
            omega
          · have hdrop : (l.drop n).length ≤ m := by
              simp only [List.length_drop]
              omega
            have := ih (l.drop n) hdrop b
            rw [hgs] at this
            exact this hb
  exact key l.length l (Nat.le_refl _)

theorem map_dropLast_eq {α β : Type _} (f : α → β) (l : List α) :
    (l.map f).dropLast = l.dropLast.map f := by
  induction l with
  | nil => rfl
  | cons a t ih =>
    cases t with
    | nil => rfl
    | cons b t' =>
      simp only [List.map_cons, List.dropLast_cons₂]
      rw [← List.map_cons f b t', ih]

/-- C9: for every non-empty input and positive batch size, `Convert`
processes exactly the elements of the half-open slice
`[start_index, end_index)`: the submitted batches concatenate to that
slice, each batch has at most `batch_size` elements, every batch except
possibly the final one has exactly `batch_size` elements, one task is
submitted per batch with `inline=False` and `blocking` left at its default
`True`, and the pool is started and then stopped on scope exit, whether
`Convert` returns normally or an exception interrupts the submission
loop. -/
theorem convert_batches {α : Type} (batchSize : Nat) (hb : 0 < batchSize)
    (values : List α) (hv : values ≠ []) (s : Nat) (e : Option Nat) :
    ((Convert batchSize values s e none).tasks.map (fun t => t.batch)).flatten =
      Islice values s e ∧
    (Convert batchSize values s e none).tasks.length =
      (Grouper batchSize (Islice values s e)).length ∧
    (∀ t ∈ (Convert batchSize values s e none).tasks,
      t.batch.length ≤ batchSize ∧ t.blocking = true ∧ t.inl = false) ∧
    (∀ t ∈ (Convert batchSize values s e none).tasks.dropLast,
      t.batch.length = batchSize) ∧
    (Convert batchSize values s e none).poolStarted = true ∧
    (Convert batchSize values s e none).poolStopped = true ∧
    (∀ i, (Convert batchSize values s e (some i)).poolStopped = true) := by
  have hlen : ¬values.length = 0 := by
    simpa [List.length_eq_zero] using hv
  have hconv : Convert batchSize values s e none =
      ⟨(Grouper batchSize (Islice values s e)).map (fun b => ⟨b, true, false⟩),
        true, true⟩ := by
    unfold Convert
    rw [if_neg hlen]
  refine ⟨?_, ?_, ?_, ?_, ?_, ?_, ?_⟩
  · rw [hconv]
    simp only [List.map_map]
    have hid : ((fun t : BatchTask α => t.batch) ∘ fun b => BatchTask.mk b true false) =
        id := rfl
    rw [hid, List.map_id]
    exact grouper_flatten batchSize hb (Islice values s e)
  · rw [hconv]
    simp
  · rw [hconv]
    intro t ht
    simp only [List.mem_map] at ht
    obtain ⟨b, hb', rfl⟩ := ht
    exact ⟨grouper_length_le batchSize hb (Islice values s e) b hb', rfl, rfl⟩
  · rw [hconv]
    intro t ht
    simp only [map_dropLast_eq, List.mem_map] at ht
    obtain ⟨b, hb', rfl⟩ := ht
    exact grouper_dropLast_length batchSize hb (Islice values s e) b hb'
  · rw [hconv]
  · rw [hconv]
  · intro i
    unfold Convert
    rw [if_neg hlen]

/-- Witness for `convert_batches` with batch size 2 over the input
`[1, 2, 3]`, sliced in full. -/
theorem convert_batches_witness :
    ((Convert 2 [1, 2, 3] 0 none none).tasks.map (fun t => t.batch)).flatten =
      Islice [1, 2, 3] 0 none ∧
    (Convert 2 [1, 2, 3] 0 none none).tasks.length =
      (Grouper 2 (Islice [1, 2, 3] 0 none)).length ∧
    (∀ t ∈ (Convert 2 [1, 2, 3] 0 none none).tasks,
      t.batch.length ≤ 2 ∧ t.blocking = true ∧ t.inl = false) ∧
    (∀ t ∈ (Convert 2 [1, 2, 3] 0 none none).tasks.dropLast,
      t.batch.length = 2) ∧
    (Convert 2 [1, 2, 3] 0 none none).poolStarted = true ∧
    (Convert 2 [1, 2, 3] 0 none none).poolStopped = true ∧
    (∀ i, (Convert 2 [1, 2, 3] 0 none (some i)).poolStopped = true) :=
  convert_batches 2 (by decide) [1, 2, 3] (by decide) 0 none

end Threadpool
